import Mathlib

/-!
Verification of the persistgraphql extraction core (src/ExtractGQL.ts).

The development shallowly embeds the data model and operations of
ExtractGQL.ts: GraphQL documents are lists of definition nodes, selection
sets are trees, the identifier assigner is explicit state passing over a
counter, promises are modelled by an explicit settlement type
(resolved / rejected / pending), and JavaScript objects used as maps are
association lists with overwrite-in-place semantics.

Functions whose code lives in modules outside the embedded source file
(extractFromAST.ts, extractFromJS.ts, common.ts, node builtins) are
modelled from the specification and marked as such in their doc comments.
-/

set_option autoImplicit false

namespace ExtractGQL

/-! ## GraphQL AST -/

/-- A selection inside a selection set: a field (with a sub-selection set),
an inline fragment, or a fragment spread naming a fragment. -/
inductive SelectionNode where
  | field (name : String) (subSelections : List SelectionNode)
  | inlineFragment (subSelections : List SelectionNode)
  | fragmentSpread (name : String)

/-- A top-level definition of a document: an operation definition
(name optional, anonymous operations have none) or a fragment definition. -/
inductive DefinitionNode where
  | opDef (name : Option String) (selections : List SelectionNode)
  | fragDef (name : String) (selections : List SelectionNode)

/-- A document is its ordered list of definitions. -/
abbrev DocumentDefs := List DefinitionNode

mutual

/-- All fragment-spread names occurring in one selection, recursively. -/
def spreadsOf : SelectionNode → List String
  | .field _ subs => spreadsOfList subs
  | .inlineFragment subs => spreadsOfList subs
  | .fragmentSpread n => [n]

/-- All fragment-spread names occurring in a selection set, recursively. -/
def spreadsOfList : List SelectionNode → List String
  | [] => []
  | s :: rest => spreadsOf s ++ spreadsOfList rest

end

/-- Mirrors isFragmentDefinition of extractFromAST: whether a definition
node is a fragment definition. -/
def isFragmentDefinition : DefinitionNode → Bool
  | .fragDef _ _ => true
  | .opDef _ _ => false

/-- The name of a definition node as a plain string (fragments always have
one; an anonymous operation yields the empty string). -/
def defName : DefinitionNode → String
  | .fragDef n _ => n
  | .opDef n _ => n.getD ""

/-- The selection set of a definition node. -/
def defSelections : DefinitionNode → List SelectionNode
  | .fragDef _ sels => sels
  | .opDef _ sels => sels

/-! ## String and path helpers -/

/-- Splits a character list at every occurrence of the separator character,
mirroring the JavaScript String.prototype.split with a one-character
separator: the result is always nonempty and separators are not kept. -/
def splitOnChar (sep : Char) : List Char → List (List Char)
  | [] => [[]]
  | c :: rest =>
    match splitOnChar sep rest with
    | s :: ss => if c = sep then [] :: s :: ss else (c :: s) :: ss
    | [] => [[c]]

/-- Modelled from the spec: node path.basename, an external library —
the final component of the path, ignoring trailing separators. -/
def basename (p : String) : String :=
  match ((splitOnChar '/' p.data).filter (fun comp => comp ≠ [])).getLast? with
  | some comp => ⟨comp⟩
  | none => p

/-- Mirrors ExtractGQL.getFileExtension: split the basename on dots;
if there is at most one piece return the empty string, otherwise the
last piece. -/
def getFileExtension (filePath : String) : String :=
  let pieces := splitOnChar '.' (basename filePath).data
  if pieces.length ≤ 1 then "" else ⟨pieces.getLastD []⟩

/-- Mirrors the JavaScript String.prototype.substr with in-range start and
length arguments: the substring starting at the given index with the given
length. -/
def substr (s : String) (start len : Nat) : String :=
  ⟨(s.data.drop start).take len⟩

/-- The hexadecimal digit character for a value below 16 (lowercase). -/
def hexDigitChar (n : Nat) : Char :=
  if n < 10 then Char.ofNat (48 + n) else Char.ofNat (87 + n)

/-- Whether a character is a lowercase hexadecimal digit: a decimal digit
or a letter between a and f. -/
def isHexDigitChar (c : Char) : Bool :=
  (decide ('0' ≤ c) && decide (c ≤ '9')) || (decide ('a' ≤ c) && decide (c ≤ 'f'))

/-- Modelled from the spec: node Buffer.prototype.toString with argument
hex, an external builtin — each byte becomes two lowercase hex digits. -/
def bytesToHex (bs : List Nat) : String :=
  ⟨bs.flatMap (fun b => [hexDigitChar (b / 16), hexDigitChar (b % 16)])⟩

/-- The UTF-8 bytes of a string, as natural numbers. -/
def utf8Bytes (s : String) : List Nat :=
  s.toUTF8.toList.map (fun b => b.toNat)

/-! ## Fragment dependency closure (Fragment Resolver, spec sections 4.5) -/

/-- Appends the names not already present, keeping first-seen order. -/
def addNewNames (acc : List String) (names : List String) : List String :=
  names.foldl (fun a m => if m ∈ a then a else a ++ [m]) acc

/-- The selection set of the first fragment definition with the given name
in the document, or the empty selection set when none is defined. -/
def fragmentSelections (docDefs : DocumentDefs) (n : String) : List SelectionNode :=
  match docDefs.find? (fun d => isFragmentDefinition d && defName d = n) with
  | some d => defSelections d
  | none => []

/-- One fixpoint pass: scan every fragment currently required and add the
fragment names its selection set spreads, keeping first-seen order. -/
def closureStep (docDefs : DocumentDefs) (req : List String) : List String :=
  req.foldl (fun acc n => addNewNames acc (spreadsOfList (fragmentSelections docDefs n))) req

/-- Iterates a monotone step function until it adds nothing new, with fuel
bounding the number of passes. -/
def iterateToFix (f : List String → List String) : Nat → List String → List String
  | 0, x => x
  | n + 1, x =>
    let y := f x
    if y = x then x else iterateToFix f n y

/-- An upper bound on the number of distinct fragment names the closure can
ever contain: every spread occurring anywhere in the document. -/
def closureFuel (docDefs : DocumentDefs) : Nat :=
  (docDefs.flatMap (fun d => spreadsOfList (defSelections d))).length + 1

/-- Modelled from the spec: getFragmentNames of extractFromAST.ts, which is
not part of the embedded source file. Collects every fragment name directly
spread from the root selection set, then repeats fixpoint passes over the
required fragments, terminating when a pass adds no new name. -/
def requiredClosure (docDefs : DocumentDefs) (rootSelections : List SelectionNode) : List String :=
  iterateToFix (closureStep docDefs) (closureFuel docDefs) (addNewNames [] (spreadsOfList rootSelections))

/-- The name-to-flag object returned by getFragmentNames: maps each name in
the closure to 1 and every other name to 0 (absent). -/
def getFragmentNamesMap (docDefs : DocumentDefs) (rootSelections : List SelectionNode) : String → Nat :=
  fun n => if n ∈ requiredClosure docDefs rootSelections then 1 else 0

/-! ## getQueryFragments (filter, dedup, sort) -/

/-- Lexicographic at-most comparison of character lists, the computable
counterpart of the string order. -/
def strLeb : List Char → List Char → Bool
  | [], _ => true
  | _ :: _, [] => false
  | a :: as, b :: bs =>
    if a < b then true
    else if b < a then false
    else strLeb as bs

theorem strLeb_iff_not_lt (as bs : List Char) : strLeb as bs = true ↔ ¬ List.lt bs as := by
  induction as generalizing bs with
  | nil =>
    cases bs with
    | nil => simp [strLeb]; intro h; nomatch h
    | cons b bs => simp [strLeb]; intro h; nomatch h
  | cons a as ih =>
    cases bs with
    | nil =>
      simp [strLeb]
      exact List.lt.nil a as
    | cons b bs =>
      by_cases hab : a < b
      · have hba : ¬ b < a := lt_asymm hab
        simp [strLeb, hab]
        intro h
        cases h with
        | head _ _ h => exact hba h
        | tail _ h2 _ => exact h2 hab
      · by_cases hba : b < a
        · simp [strLeb, hab, hba]
          exact List.lt.head bs as hba
        · simp [strLeb, hab, hba, ih]
          constructor
          · intro h hlt
            cases hlt with
            | head _ _ h2 => exact hba h2
            | tail _ _ h3 => exact h h3
          · intro h hlt
            exact h (List.lt.tail hba hab hlt)

/-- The computable comparator decides the string order of Mathlib. -/
theorem strLeb_iff_le (a b : String) : strLeb a.data b.data = true ↔ a ≤ b := by
  rw [strLeb_iff_not_lt]
  show ¬ List.lt b.data a.data ↔ ¬ b < a
  rw [String.lt_iff_toList_lt]
  exact not_congr (List.lt_iff_lex_lt b.data a.data)

/-- Comparison of definition nodes by name, ascending. -/
def fragNameLe (a b : DefinitionNode) : Prop :=
  defName a ≤ defName b

instance : DecidableRel fragNameLe :=
  fun a b => decidable_of_iff (strLeb (defName a).data (defName b).data = true) (strLeb_iff_le _ _)

instance : IsTotal DefinitionNode fragNameLe :=
  ⟨fun a b => le_total (defName a) (defName b)⟩

instance : IsTrans DefinitionNode fragNameLe :=
  ⟨fun _ _ _ hab hbc => le_trans hab hbc⟩

/-- Modelled from the spec: sortFragmentsByName of common.ts, which is not
part of the embedded source file — sorts definitions by fragment name
ascending. -/
def sortFragmentsByName (l : List DefinitionNode) : List DefinitionNode :=
  List.insertionSort fragNameLe l

/-- Mirrors the reduceQueryDefinitions callback inside
ExtractGQL.getQueryFragments: keep a fragment definition whose name maps to
1 in queryFragmentNames, unless a definition of the same name is already in
the carry (findIndex over the carry). -/
def reduceQueryDefinitions (queryFragmentNames : String → Nat) (carry : List DefinitionNode)
    (definition : DefinitionNode) : List DefinitionNode :=
  if isFragmentDefinition definition ∧ queryFragmentNames (defName definition) = 1 then
    if (carry.findIdx? (fun value => defName value = defName definition)).isSome then
      carry
    else
      carry ++ [definition]
  else
    carry

/-- Mirrors ExtractGQL.getQueryFragments with the queryFragmentNames map
abstracted: reduce the document definitions, then sort by fragment name. -/
def getQueryFragments (queryFragmentNames : String → Nat) (docDefs : DocumentDefs) : List DefinitionNode :=
  sortFragmentsByName (docDefs.foldl (reduceQueryDefinitions queryFragmentNames) [])

/-- Mirrors ExtractGQL.getQueryFragments for a concrete operation: the
queryFragmentNames map is computed from the operation selection set by the
fragment-name closure. -/
def getQueryFragmentsFull (docDefs : DocumentDefs) (queryDefinition : DefinitionNode) : List DefinitionNode :=
  getQueryFragments (getFragmentNamesMap docDefs (defSelections queryDefinition)) docDefs

/-- Mirrors the per-operation document construction in
ExtractGQL.createMapFromDocument: the operation definition is unshifted onto
the fragment definitions returned by getQueryFragments. -/
def canonicalDefinitions (docDefs : DocumentDefs) (queryDefinition : DefinitionNode) : List DefinitionNode :=
  queryDefinition :: getQueryFragmentsFull docDefs queryDefinition

/-- Restates the spec wording: the fragment definitions whose name is in
the required closure. -/
def filterRequiredFragments (queryFragmentNames : String → Nat) (docDefs : DocumentDefs) : List DefinitionNode :=
  docDefs.filter (fun d => isFragmentDefinition d && queryFragmentNames (defName d) = 1)

/-- Restates the spec wording: deduplicate by name, the first occurrence in
document order winning. -/
def dedupByName (l : List DefinitionNode) : List DefinitionNode :=
  l.foldl (fun acc d => if acc.any (fun e => defName e = defName d) then acc else acc ++ [d]) []

/-! ## Identifier assignment (getQueryId and the OutputMap) -/

/-- Mirrors the HASH_TYPES constant listing the recognized strategies. -/
def HASH_TYPES : List String :=
  ["md5", "sha1", "sha256", "sequential", "uuid"]

/-- The persistent assigner state: the monotonically increasing query id
counter, starting at 0. -/
structure GQLState where
  queryId : Nat
deriving DecidableEq

/-- A produced identifier: a number (sequential strategy) or a string
(digest and uuid strategies). -/
inductive Identifier where
  | num (n : Nat)
  | str (s : String)
deriving DecidableEq

/-- Mirrors ExtractGQL.getQueryId. External effects are made explicit:
the digest function models crypto.createHash(alg).update(key).digest(hex)
applied to the UTF-8 bytes of the key, and randBytes models the 32 bytes
returned by crypto.randomBytes. The switch falls through to the sequential
counter for the sequential strategy and for any unrecognized strategy
(the default case). -/
def getQueryId (hashType : String) (digest : String → List Nat → String)
    (randBytes : List Nat) (st : GQLState) (documentQuery : String) : Identifier × GQLState :=
  if hashType = "md5" then
    (.str (digest "md5" (utf8Bytes documentQuery)), st)
  else if hashType = "sha1" then
    (.str (digest "sha1" (utf8Bytes documentQuery)), st)
  else if hashType = "sha256" then
    (.str (digest "sha256" (utf8Bytes documentQuery)), st)
  else if hashType = "uuid" then
    let randomBytesHex := bytesToHex randBytes
    (.str (substr randomBytesHex 0 8 ++ "-" ++ substr randomBytesHex 8 4 ++ "-" ++
           substr randomBytesHex 12 4 ++ "-" ++ substr randomBytesHex 16 4 ++ "-" ++
           substr randomBytesHex 20 12), st)
  else
    (.num (st.queryId + 1), { st with queryId := st.queryId + 1 })

/-- The OutputMap: a JavaScript object from canonical key to identifier,
modelled as an association list in property insertion order. -/
abbrev OutputMap := List (String × Identifier)

/-- JavaScript object property write: overwrite in place when the key
exists, append otherwise. -/
def objSet (m : OutputMap) (k : String) (v : Identifier) : OutputMap :=
  if m.any (fun p => p.1 = k) then
    m.map (fun p => if p.1 = k then (k, v) else p)
  else
    m ++ [(k, v)]

/-- JavaScript object property read. -/
def objGet (m : OutputMap) (k : String) : Option Identifier :=
  (m.find? (fun p => p.1 = k)).map (fun p => p.2)

/-- Mirrors the assignment loop of ExtractGQL.createMapFromDocument over the
canonical keys in encounter order: for each key, getQueryId is called
unconditionally and its result is written into the map. -/
def createMapFromKeys (hashType : String) (digest : String → List Nat → String)
    (randBytes : List Nat) : List String → GQLState → OutputMap → OutputMap × GQLState
  | [], st, m => (m, st)
  | k :: ks, st, m =>
    let r := getQueryId hashType digest randBytes st k
    createMapFromKeys hashType digest randBytes ks r.2 (objSet m k r.1)

/-! ## Filesystem traversal and promise settlement (readInputPath) -/

/-- The three observable states of a JavaScript promise: settled with a
value, settled with a rejection reason, or never settled. -/
inductive Settlement (α : Type) where
  | resolved (a : α)
  | rejected (err : String)
  | unsettled
deriving DecidableEq

/-- A filesystem node as observed by readInputPath. A file carries the
outcome that readInputFile produces for it (contents or read error); a
directory carries its children in directory-listing order; statFailure is a
path on which fs.stat errors. -/
inductive FSNode where
  | file (readOutcome : Except String String)
  | dir (children : List FSNode)
  | statFailure (err : String)

/-- Mirrors the behaviour of Promise.all on a list of promises: resolved
with the values in input order when all resolve, rejected as soon as any
member rejects (even if others never settle), never settled otherwise. -/
def promiseAll : List (Settlement String) → Settlement (List String)
  | [] => .resolved []
  | s :: rest =>
    match s with
    | .rejected e => .rejected e
    | .resolved v =>
      match promiseAll rest with
      | .resolved vs => .resolved (v :: vs)
      | .rejected e => .rejected e
      | .unsettled => .unsettled
    | .unsettled =>
      match promiseAll rest with
      | .rejected e => .rejected e
      | _ => .unsettled

mutual

/-- Mirrors ExtractGQL.readInputPath as the settlement of the promise it
returns. On a stat failure, isDirectory rejects and the chain has no
rejection handler, so the outer promise never settles. On a directory, the
children are read recursively and joined by Promise.all; the resolution
handler concatenates the strings in listing order, but the chain again has
no rejection handler, so any rejection coming out of Promise.all leaves the
outer promise unsettled. On a file, readInputFile resolves or rejects the
outer promise directly. -/
def readInputPath : FSNode → Settlement String
  | .statFailure _ => .unsettled
  | .dir children =>
    match promiseAll (readInputPathList children) with
    | .resolved queryStrings => .resolved (queryStrings.foldl (fun x y => x ++ y) "")
    | .rejected _ => .unsettled
    | .unsettled => .unsettled
  | .file (.ok s) => .resolved s
  | .file (.error e) => .rejected e

/-- readInputPath mapped over the children of a directory. -/
def readInputPathList : List FSNode → List (Settlement String)
  | [] => []
  | c :: rest => readInputPath c :: readInputPathList rest

end

/-- Models the slot-filling behaviour of Promise.all: the eventual values
are written into their slots in the order the underlying operations
complete. The slot table is a function from index to the optional value
recorded so far. -/
def gatherSlots (vs : List String) (completionOrder : List Nat) : Nat → Option String :=
  completionOrder.foldl (fun slots i => fun j => if j = i then vs[i]? else slots j) (fun _ => none)

/-- Mirrors ExtractGQL.readInputFile, with the extension-matching logic of
the source and the contents of extractFromJS.ts (not part of the embedded
source file) abstracted as the literalExtract function applied to the file
contents in the inJsCode mode. -/
def readInputFile (extension : String) (inJsCode : Bool) (literalExtract : String → String)
    (inputFile : String) (readOutcome : Except String String) : Settlement String :=
  if getFileExtension inputFile = extension then
    match readOutcome with
    | .ok contents => .resolved (if inJsCode then literalExtract contents else contents)
    | .error e => .rejected e
  else
    .resolved ""

/-! ## The command-line entry point (main) -/

/-- The argument structure handed to main by yargs, restricted to the
fields main reads. A none means the flag is absent (undefined). -/
structure Argv where
  args : List String
  addTypename : Bool
  js : Bool
  extension : Option String
  hash : Option String

/-- The options record built by main for the ExtractGQL constructor. -/
structure MainOptions where
  inputFilePath : Option String
  outputFilePath : Option String
  addTypenameTransformer : Bool
  inJsCode : Bool
  extension : Option String
  hashType : Option String
deriving DecidableEq

/-- The outcome of main: either it exits with the invalid-hash message
before constructing ExtractGQL (so no file is read and no OutputMap entry
is produced), or it reaches the extraction call with the options built. -/
inductive MainOutcome where
  | configError (msg : String)
  | run (options : MainOptions)
deriving DecidableEq

/-- JavaScript truthiness of an optional string flag value: an absent flag
and the empty string are falsy. -/
def truthy : Option String → Bool
  | none => false
  | some s => s ≠ ""

/-- Mirrors main: positional arguments give the input and output paths,
add_typename appends the typename transformer, js and extension set their
options when truthy, and a truthy hash value is validated against
HASH_TYPES — an invalid one exits before extraction, a valid one is stored.
A falsy hash value skips the check and leaves the strategy at its default. -/
def mainModel (argv : Argv) : MainOutcome :=
  let options : MainOptions :=
    { inputFilePath := argv.args[0]?
      outputFilePath := argv.args[1]?
      addTypenameTransformer := argv.addTypename
      inJsCode := argv.js
      extension := if truthy argv.extension then argv.extension else none
      hashType := none }
  if truthy argv.hash then
    match argv.hash with
    | some h =>
      if h ∈ HASH_TYPES then
        .run { options with hashType := some h }
      else
        .configError "Invalid hash operation."
    | none => .run options
  else
    .run options

/-! ## Theorems -/

theorem createMapFromKeys_sequential_count (digest : String → List Nat → String)
    (randBytes : List Nat) (keys : List String) (st : GQLState) (m : OutputMap) :
    ((createMapFromKeys "sequential" digest randBytes keys st m).2).queryId =
      st.queryId + keys.length := by
  induction keys generalizing st m with
  | nil => rfl
  | cons k ks ih =>
    show ((createMapFromKeys "sequential" digest randBytes ks
      { queryId := st.queryId + 1 } (objSet m k (.num (st.queryId + 1)))).2).queryId = _
    rw [ih]
    simp [List.length_cons]
    omega

/-- Claim C1, counterexample: with the sequential strategy and canonical
keys encountered in the order A, B, A, B, C, the OutputMap does not assign
A to 1, B to 2 and C to 3 with a final counter of 3, contrary to the claim:
every encounter increments the counter and overwrites the entry. -/
theorem sequential_cache_claim_false :
    ¬ (objGet (createMapFromKeys "sequential" (fun _ _ => "") [] ["A", "B", "A", "B", "C"]
          ⟨0⟩ []).1 "A" = some (.num 1) ∧
       objGet (createMapFromKeys "sequential" (fun _ _ => "") [] ["A", "B", "A", "B", "C"]
          ⟨0⟩ []).1 "B" = some (.num 2) ∧
       objGet (createMapFromKeys "sequential" (fun _ _ => "") [] ["A", "B", "A", "B", "C"]
          ⟨0⟩ []).1 "C" = some (.num 3) ∧
       (createMapFromKeys "sequential" (fun _ _ => "") [] ["A", "B", "A", "B", "C"]
          ⟨0⟩ []).2.queryId = 3) := by
  decide

/-- Claim C1, amended: the sequential strategy keeps no cache — getQueryId
is called once per operation and its sequential branch increments the
counter on every call, repeated canonical key or not, and the map write
overwrites the earlier identifier. The counter grows by the number of
encounters, and for keys encountered in the order A, B, A, B, C the
identifiers handed out are 1 through 5, leaving A mapped to 3, B to 4 and
C to 5 with a final counter of 5. -/
theorem sequential_assignment_increments_every_encounter
    (digest : String → List Nat → String) (randBytes : List Nat)
    (keys : List String) (st : GQLState) (m : OutputMap) :
    ((createMapFromKeys "sequential" digest randBytes keys st m).2).queryId =
      st.queryId + keys.length ∧
    createMapFromKeys "sequential" (fun _ _ => "") [] ["A", "B", "A", "B", "C"] ⟨0⟩ [] =
      ([("A", .num 3), ("B", .num 4), ("C", .num 5)], ⟨5⟩) :=
  ⟨createMapFromKeys_sequential_count digest randBytes keys st m, rfl⟩

/-- Claim C2: the code contradicts the documented fail-fast contract. When
the input path is itself a file whose read fails, readInputPath rejects
with that error; but when any descendant of a directory fails (file read or
stat), the rejection coming out of Promise.all — and the rejection of
isDirectory on a stat failure — has no handler in the directory branch, so
the promise returned by readInputPath never settles at all instead of
rejecting. No partial aggregated string is produced either way. -/
theorem readInputPath_descendant_failure_never_settles :
    readInputPath (.dir [.file (.error "EACCES")]) = .unsettled ∧
    readInputPath (.dir [.statFailure "EPERM"]) = .unsettled ∧
    readInputPath (.dir [.dir [.file (.error "EACCES")], .file (.ok "query Q { a }")]) =
      .unsettled ∧
    readInputPath (.file (.error "EACCES")) = .rejected "EACCES" :=
  ⟨rfl, rfl, rfl, rfl⟩

/-- Claim C5: with strategy md5, sha1 or sha256, getQueryId returns the
digest of the UTF-8 bytes of the canonical key under the named algorithm,
leaves the assigner state untouched, and the identifier depends on nothing
but the key — so two runs over the same input produce identical OutputMap
values for identical keys. -/
theorem hash_strategy_digest_of_key (digest : String → List Nat → String)
    (randBytes randBytes' : List Nat) (st st' : GQLState) (key : String) :
    getQueryId "md5" digest randBytes st key = (.str (digest "md5" (utf8Bytes key)), st) ∧
    getQueryId "sha1" digest randBytes st key = (.str (digest "sha1" (utf8Bytes key)), st) ∧
    getQueryId "sha256" digest randBytes st key = (.str (digest "sha256" (utf8Bytes key)), st) ∧
    (getQueryId "md5" digest randBytes st key).1 = (getQueryId "md5" digest randBytes' st' key).1 ∧
    (getQueryId "sha1" digest randBytes st key).1 = (getQueryId "sha1" digest randBytes' st' key).1 ∧
    (getQueryId "sha256" digest randBytes st key).1 =
      (getQueryId "sha256" digest randBytes' st' key).1 :=
  ⟨rfl, rfl, rfl, rfl, rfl, rfl⟩

/-- Claim C8: a file whose extension does not equal the configured document
extension contributes the empty string without the read outcome being
consulted, and readInputFile rejects only when the extension matches and
the underlying read itself failed. -/
theorem mismatched_extension_resolves_empty (docExt : String) (inJsCode : Bool)
    (literalExtract : String → String) (inputFile : String)
    (readOutcome : Except String String) :
    (getFileExtension inputFile ≠ docExt →
      readInputFile docExt inJsCode literalExtract inputFile readOutcome = .resolved "") ∧
    (∀ e, readInputFile docExt inJsCode literalExtract inputFile readOutcome = .rejected e →
      getFileExtension inputFile = docExt ∧ readOutcome = .error e) := by
  constructor
  · intro hne
    unfold readInputFile
    rw [if_neg hne]
  · intro e hrej
    unfold readInputFile at hrej
    by_cases hext : getFileExtension inputFile = docExt
    · rw [if_pos hext] at hrej
      cases readOutcome with
      | ok c => simp at hrej
      | error e' =>
        simp only [Settlement.rejected.injEq] at hrej
        exact ⟨hext, by rw [hrej]⟩
    · rw [if_neg hext] at hrej
      simp at hrej

/-- Witness for claim C8 at a concrete mismatched file: a .txt file whose
read would fail still resolves with the empty string. -/
theorem mismatched_extension_resolves_empty_witness :
    readInputFile "graphql" false id "queries.txt" (.error "EACCES") = .resolved "" :=
  (mismatched_extension_resolves_empty "graphql" false id "queries.txt"
    (.error "EACCES")).1 (by decide)

/-- The document of the cycle test: fragment F1 spreads F2, fragment F2
spreads F1 back, and the operation spreads F1. -/
def F1def : DefinitionNode := .fragDef "F1" [.fragmentSpread "F2"]

/-- The fragment F2 of the cycle test, spreading F1 back. -/
def F2def : DefinitionNode := .fragDef "F2" [.fragmentSpread "F1"]

/-- The operation of the cycle test, spreading F1. -/
def cycleOp : DefinitionNode := .opDef (some "Q") [.fragmentSpread "F1"]

/-- The full document of the cycle test. -/
def cycleDoc : DocumentDefs := [F1def, F2def, cycleOp]

/-- Claim C3: over the fragment-spread cycle F1 -> F2 -> F1, the closure
computation reaches its fixed point — one further pass adds nothing — and
getQueryFragments returns exactly the definitions of F1 and F2, each once
(the result is literally the two-element list, F1 before F2). -/
theorem cycle_fragment_resolution_terminates :
    requiredClosure cycleDoc (defSelections cycleOp) = ["F1", "F2"] ∧
    closureStep cycleDoc ["F1", "F2"] = ["F1", "F2"] ∧
    getQueryFragmentsFull cycleDoc cycleOp = [F1def, F2def] ∧
    F1def ≠ F2def := by
  refine ⟨rfl, rfl, rfl, fun h => ?_⟩
  have hname := congrArg defName h
  simp [F1def, F2def, defName] at hname

theorem reduce_foldl_eq_dedup_filter (req : String → Nat) (defs : DocumentDefs)
    (carry : List DefinitionNode) :
    defs.foldl (reduceQueryDefinitions req) carry =
      (filterRequiredFragments req defs).foldl
        (fun acc d => if acc.any (fun e => defName e = defName d) then acc else acc ++ [d])
        carry := by
  induction defs generalizing carry with
  | nil => rfl
  | cons d rest ih =>
    rw [List.foldl_cons, filterRequiredFragments, List.filter_cons]
    by_cases hp : isFragmentDefinition d ∧ req (defName d) = 1
    · have hb : (isFragmentDefinition d && decide (req (defName d) = 1)) = true := by
        simp [hp.1, hp.2]
      rw [if_pos hb, List.foldl_cons]
      have hcarry : reduceQueryDefinitions req carry d =
          if carry.any (fun e => defName e = defName d) then carry else carry ++ [d] := by
        unfold reduceQueryDefinitions
        rw [if_pos hp, List.findIdx?_isSome]
      rw [hcarry]
      exact ih _
    · have hb : (isFragmentDefinition d && decide (req (defName d) = 1)) ≠ true := by
        simpa [Bool.and_eq_true, -Bool.decide_and] using hp
      rw [if_neg hb]
      have hcarry : reduceQueryDefinitions req carry d = carry := by
        unfold reduceQueryDefinitions
        rw [if_neg hp]
      rw [hcarry]
      exact ih carry

/-- Claim C4: the per-operation canonical document is the operation
definition first, followed by exactly the fragment definitions whose name
is in the required closure, deduplicated by name with the first
document-order occurrence winning, and sorted by fragment name ascending. -/
theorem canonical_document_structure (docDefs : DocumentDefs) (queryDefinition : DefinitionNode) :
    canonicalDefinitions docDefs queryDefinition =
      queryDefinition ::
        sortFragmentsByName
          (dedupByName
            (filterRequiredFragments
              (getFragmentNamesMap docDefs (defSelections queryDefinition)) docDefs)) ∧
    List.Sorted fragNameLe (getQueryFragmentsFull docDefs queryDefinition) ∧
    (canonicalDefinitions docDefs queryDefinition).head? = some queryDefinition := by
  refine ⟨?_, ?_, rfl⟩
  · unfold canonicalDefinitions getQueryFragmentsFull getQueryFragments dedupByName
    rw [reduce_foldl_eq_dedup_filter]
  · exact List.sorted_insertionSort fragNameLe _

theorem promiseAll_resolved (ss : List String) :
    promiseAll (ss.map Settlement.resolved) = .resolved ss := by
  induction ss with
  | nil => rfl
  | cons s rest ih =>
    show (match promiseAll (rest.map Settlement.resolved) with
      | Settlement.resolved vs => Settlement.resolved (s :: vs)
      | Settlement.rejected e => Settlement.rejected e
      | Settlement.unsettled => Settlement.unsettled) = Settlement.resolved (s :: rest)
    rw [ih]

theorem gatherSlots_go (vs : List String) (order : List Nat) (init : Nat → Option String)
    (j : Nat) :
    (order.foldl (fun slots i => fun j' => if j' = i then vs[i]? else slots j') init) j =
      if j ∈ order then vs[j]? else init j := by
  induction order generalizing init with
  | nil => simp
  | cons i rest ih =>
    rw [List.foldl_cons, ih]
    by_cases hj : j ∈ rest
    · simp [hj, List.mem_cons]
    · by_cases hji : j = i
      · subst hji
        simp [hj, List.mem_cons]
      · simp [hj, hji, List.mem_cons]

theorem gatherSlots_perm (vs : List String) (order : List Nat)
    (h : order.Perm (List.range vs.length)) (j : Nat) : gatherSlots vs order j = vs[j]? := by
  unfold gatherSlots
  rw [gatherSlots_go]
  by_cases hj : j ∈ order
  · rw [if_pos hj]
  · rw [if_neg hj]
    have hr : j ∉ List.range vs.length := fun hr => hj (h.mem_iff.mpr hr)
    have hlen : vs.length ≤ j := by simpa [List.mem_range, Nat.not_lt] using hr
    rw [List.getElem?_eq_none hlen]

/-- Claim C6: when every child of a directory resolves, readInputPath
resolves with the concatenation of the child strings in directory-listing
order; and the slot table Promise.all fills is independent of the order in
which the per-entry reads complete — any completion order that is a
permutation of the indices yields the values in index order. -/
theorem directory_concatenation_in_listing_order (children : List FSNode) (ss : List String)
    (h : readInputPathList children = ss.map Settlement.resolved) :
    readInputPath (.dir children) = .resolved (ss.foldl (fun x y => x ++ y) "") ∧
    ∀ (vs : List String) (completionOrder : List Nat),
      completionOrder.Perm (List.range vs.length) →
      ∀ j, gatherSlots vs completionOrder j = vs[j]? := by
  constructor
  · show (match promiseAll (readInputPathList children) with
      | .resolved queryStrings => Settlement.resolved (queryStrings.foldl (fun x y => x ++ y) "")
      | .rejected _ => Settlement.unsettled
      | .unsettled => Settlement.unsettled) = _
    rw [h, promiseAll_resolved]
  · exact fun vs order hperm j => gatherSlots_perm vs order hperm j

/-- Witness for claim C6 on a concrete directory of two resolving files:
the aggregate is the listing-order concatenation. -/
theorem directory_concatenation_in_listing_order_witness :
    readInputPath (.dir [.file (.ok "query A { a } "), .file (.ok "query B { b } ")]) =
      .resolved "query A { a } query B { b } " :=
  (directory_concatenation_in_listing_order
    [.file (.ok "query A { a } "), .file (.ok "query B { b } ")]
    ["query A { a } ", "query B { b } "] rfl).1

/-- Claim C7, counterexample: requesting the empty-string identifier
strategy — a strategy outside the recognized set — is not rejected: the
truthiness check on the hash flag skips validation, and main proceeds to
extraction with the default strategy. -/
theorem empty_hash_skips_validation :
    mainModel { args := ["queries.graphql"], addTypename := false, js := false,
                extension := none, hash := some "" } =
      .run { inputFilePath := some "queries.graphql", outputFilePath := none,
             addTypenameTransformer := false, inJsCode := false,
             extension := none, hashType := none } ∧
    "" ∉ HASH_TYPES := by
  exact ⟨rfl, by decide⟩

/-- Claim C7, amended: a non-empty identifier strategy outside the
recognized set is rejected before any extraction work begins — main exits
with the invalid-hash message without building options or constructing the
extractor; an empty-string strategy, although also unrecognized, fails the
truthiness check, so the flag is silently ignored and extraction proceeds
with the default sequential strategy. -/
theorem invalid_hash_rejected_before_extraction (argv : Argv) (h : String)
    (hh : argv.hash = some h) (hne : h ≠ "") (hmem : h ∉ HASH_TYPES) :
    mainModel argv = .configError "Invalid hash operation." := by
  unfold mainModel
  rw [hh]
  have ht : truthy (some h) = true := by simp [truthy, hne]
  rw [ht]
  simp [hmem]

/-- Witness for the amended claim C7 at a concrete unrecognized strategy. -/
theorem invalid_hash_rejected_before_extraction_witness :
    mainModel { args := ["queries.graphql"], addTypename := false, js := false,
                extension := none, hash := some "bogus" } =
      .configError "Invalid hash operation." :=
  invalid_hash_rejected_before_extraction _ "bogus" rfl (by decide) (by decide)

theorem bytesToHex_data (bs : List Nat) :
    (bytesToHex bs).data = bs.flatMap (fun b => [hexDigitChar (b / 16), hexDigitChar (b % 16)]) :=
  rfl

theorem bytesToHex_length (bs : List Nat) : (bytesToHex bs).data.length = 2 * bs.length := by
  rw [bytesToHex_data]
  induction bs with
  | nil => rfl
  | cons b rest ih =>
    simp only [List.flatMap_cons, List.length_append, List.length_cons, List.length_nil,
      List.length_cons, ih]
    simp
    omega

theorem hexDigitChar_isHex (n : Nat) (h : n < 16) : isHexDigitChar (hexDigitChar n) = true := by
  interval_cases n <;> decide

theorem bytesToHex_chars_hex (bs : List Nat) (hb : ∀ b ∈ bs, b < 256) :
    ∀ c ∈ (bytesToHex bs).data, isHexDigitChar c = true := by
  rw [bytesToHex_data]
  intro c hc
  rw [List.mem_flatMap] at hc
  obtain ⟨b, hbmem, hcmem⟩ := hc
  have h256 := hb b hbmem
  have h1 : b / 16 < 16 := (Nat.div_lt_iff_lt_mul (by norm_num)).mpr (by omega)
  have h2 : b % 16 < 16 := Nat.mod_lt _ (by norm_num)
  simp only [List.mem_cons, List.not_mem_nil, or_false] at hcmem
  rcases hcmem with rfl | rfl
  · exact hexDigitChar_isHex _ h1
  · exact hexDigitChar_isHex _ h2

/-- Claim C9: with the uuid strategy, getQueryId produces 32 hex characters
in five dash-separated groups of lengths 8, 4, 4, 4 and 12, leaves the
assigner state untouched, and the result is independent of the canonical
key argument. -/
theorem uuid_format (digest : String → List Nat → String) (randBytes : List Nat)
    (st : GQLState) (key : String) (hlen : randBytes.length = 32)
    (hb : ∀ b ∈ randBytes, b < 256) :
    (∃ g1 g2 g3 g4 g5 : List Char,
      (getQueryId "uuid" digest randBytes st key).1 =
        .str ⟨g1 ++ '-' :: g2 ++ '-' :: g3 ++ '-' :: g4 ++ '-' :: g5⟩ ∧
      g1.length = 8 ∧ g2.length = 4 ∧ g3.length = 4 ∧ g4.length = 4 ∧ g5.length = 12 ∧
      ∀ c ∈ g1 ++ g2 ++ g3 ++ g4 ++ g5, isHexDigitChar c = true) ∧
    (∀ key', (getQueryId "uuid" digest randBytes st key').1 =
      (getQueryId "uuid" digest randBytes st key).1) ∧
    (getQueryId "uuid" digest randBytes st key).2 = st := by
  have hdlen : (bytesToHex randBytes).data.length = 64 := by
    rw [bytesToHex_length, hlen]
  refine ⟨⟨(bytesToHex randBytes).data.take 8,
          ((bytesToHex randBytes).data.drop 8).take 4,
          ((bytesToHex randBytes).data.drop 12).take 4,
          ((bytesToHex randBytes).data.drop 16).take 4,
          ((bytesToHex randBytes).data.drop 20).take 12,
          ?_, ?_, ?_, ?_, ?_, ?_, ?_⟩, fun _ => rfl, rfl⟩
  · show Identifier.str (substr (bytesToHex randBytes) 0 8 ++ "-" ++
      substr (bytesToHex randBytes) 8 4 ++ "-" ++ substr (bytesToHex randBytes) 12 4 ++ "-" ++
      substr (bytesToHex randBytes) 16 4 ++ "-" ++ substr (bytesToHex randBytes) 20 12) = _
    refine congrArg Identifier.str (String.ext ?_)
    simp [substr, String.data_append, List.append_assoc]
  · simp [List.length_take, hdlen]
  · simp [List.length_take, List.length_drop, hdlen]
  · simp [List.length_take, List.length_drop, hdlen]
  · simp [List.length_take, List.length_drop, hdlen]
  · simp [List.length_take, List.length_drop, hdlen]
  · intro c hc
    simp only [List.mem_append] at hc
    rcases hc with ((((hc | hc) | hc) | hc) | hc)
    · exact bytesToHex_chars_hex randBytes hb c (List.take_subset _ _ hc)
    · exact bytesToHex_chars_hex randBytes hb c (List.drop_subset _ _ (List.take_subset _ _ hc))
    · exact bytesToHex_chars_hex randBytes hb c (List.drop_subset _ _ (List.take_subset _ _ hc))
    · exact bytesToHex_chars_hex randBytes hb c (List.drop_subset _ _ (List.take_subset _ _ hc))
    · exact bytesToHex_chars_hex randBytes hb c (List.drop_subset _ _ (List.take_subset _ _ hc))

/-- Witness for claim C9 at a concrete 32-byte random draw. -/
theorem uuid_format_witness :
    (∃ g1 g2 g3 g4 g5 : List Char,
      (getQueryId "uuid" (fun _ _ => "") (List.replicate 32 0) ⟨0⟩ "query Q { a }").1 =
        .str ⟨g1 ++ '-' :: g2 ++ '-' :: g3 ++ '-' :: g4 ++ '-' :: g5⟩ ∧
      g1.length = 8 ∧ g2.length = 4 ∧ g3.length = 4 ∧ g4.length = 4 ∧ g5.length = 12 ∧
      ∀ c ∈ g1 ++ g2 ++ g3 ++ g4 ++ g5, isHexDigitChar c = true) ∧
    (∀ key', (getQueryId "uuid" (fun _ _ => "") (List.replicate 32 0) ⟨0⟩ key').1 =
      (getQueryId "uuid" (fun _ _ => "") (List.replicate 32 0) ⟨0⟩ "query Q { a }").1) ∧
    (getQueryId "uuid" (fun _ _ => "") (List.replicate 32 0) ⟨0⟩ "query Q { a }").2 = ⟨0⟩ :=
  uuid_format (fun _ _ => "") (List.replicate 32 0) ⟨0⟩ "query Q { a }" (by decide) (by decide)

theorem splitOnChar_ne_nil (sep : Char) (cs : List Char) : splitOnChar sep cs ≠ [] := by
  cases cs with
  | nil => simp [splitOnChar]
  | cons c rest =>
    unfold splitOnChar
    cases h : splitOnChar sep rest with
    | nil => simp
    | cons s ss => by_cases hc : c = sep <;> simp [hc]

theorem splitOnChar_length (sep : Char) (cs : List Char) :
    (splitOnChar sep cs).length = cs.count sep + 1 := by
  induction cs with
  | nil => rfl
  | cons c rest ih =>
    unfold splitOnChar
    cases h : splitOnChar sep rest with
    | nil => exact absurd h (splitOnChar_ne_nil sep rest)
    | cons s ss =>
      rw [h] at ih
      show (if c = sep then [] :: s :: ss else (c :: s) :: ss).length = (c :: rest).count sep + 1
      by_cases hc : c = sep
      · subst hc
        rw [if_pos rfl]
        simp [List.count_cons] at ih ⊢
        omega
      · rw [if_neg hc]
        simp [List.count_cons, hc] at ih ⊢
        omega

/-- Claim C10, counterexample: for the path file. — a basename that does
contain a dot — getFileExtension returns the empty string, so the claimed
equivalence between an empty result and a dot-free basename is false. -/
theorem getFileExtension_empty_iff_no_dot_false :
    ¬ (getFileExtension "file." = "" ↔ '.' ∉ (basename "file.").data) := by
  decide

/-- Claim C10, amended: getFileExtension returns the last dot-separated
segment of the basename when the basename contains at least one dot — a
segment that is itself empty when the basename ends in a dot — and returns
the empty string when the basename contains no dot; an empty result
therefore does not imply the absence of a dot. A dotfile named .graphql
still yields the extension graphql. -/
theorem getFileExtension_characterization (filePath : String) :
    getFileExtension filePath =
      (if '.' ∈ (basename filePath).data
       then (⟨(splitOnChar '.' (basename filePath).data).getLastD []⟩ : String)
       else "") ∧
    getFileExtension ".graphql" = "graphql" := by
  refine ⟨?_, rfl⟩
  unfold getFileExtension
  by_cases hdot : '.' ∈ (basename filePath).data
  · have hcount : (basename filePath).data.count '.' ≠ 0 := by
      rw [Ne, List.count_eq_zero]
      exact fun h => h hdot
    have hlen : ¬ (splitOnChar '.' (basename filePath).data).length ≤ 1 := by
      rw [splitOnChar_length]
      omega
    rw [if_neg hlen, if_pos hdot]
  · have hcount : (basename filePath).data.count '.' = 0 := List.count_eq_zero.mpr hdot
    have hlen : (splitOnChar '.' (basename filePath).data).length ≤ 1 := by
      rw [splitOnChar_length, hcount]
    rw [if_pos hlen, if_neg hdot]

end ExtractGQL
